import Mathlib

/-!
# Verification of `mimic_w2v_tools/w2v.py` (corpus preparation for word2vec)

Shallow embedding of the corpus-preparation pipeline `prep_w2v` and its
helpers `_gather_token_count`, `_write_file` and `_chunk_list` from
`src/mimic_w2v_tools/w2v.py`, together with the file-discovery walk at the
top of `prep_w2v`.

Modelling conventions:
* A token and a line are lists of characters (`Tok`), mirroring Python
  strings; `str.split(" ")`, `str.rstrip("\n")`, `str.lower()` and
  `re.sub("\x5cd", "0", s)` are transcribed character by character.
  `str.lower` and the regex class `\x5cd` are modelled on the ASCII range
  (`Char.toLower`, `Char.isDigit`); both phases use the same model, which is
  all the claims depend on.
* A Python `dict` / `defaultdict(int)` is an association list with the
  insertion-order update semantics of CPython dicts (`dictAdd`).
* `random.random()` is an ambient draw in `[0, 1)`; since singleton
  sampling performs exactly one draw per distinct table key, the sequence
  of draws is modelled as a function from the token to its draw.
* Python 3 `round` is round-half-to-even (`pyRound`); the float division
  `len(the_list) / nb_parts` is modelled by exact rational division.
* File contents are lists of raw lines, each line carrying its trailing
  `'\n'` exactly as produced by Python file iteration.
* `joblib.Parallel` preserves the order of results, so each parallel map
  is modelled as an order-preserving `List.map` over the task list.
-/

namespace MimicW2v

/-- A Python string (token, line, file name) as a list of characters. -/
abbrev Tok := List Char

/-! ## Tokenization and normalization -/

/-- `line.split(" ")`: split on every single space character; consecutive,
leading and trailing spaces yield empty-string tokens, and the empty string
splits to `[""]` — CPython `str.split` with an explicit separator. -/
def splitOnSpace : Tok → List Tok
  | [] => [[]]
  | c :: rest =>
    if c = ' ' then [] :: splitOnSpace rest
    else
      match splitOnSpace rest with
      | [] => [[c]]
      | t :: ts => (c :: t) :: ts

/-- `line.rstrip("\n")`: remove every trailing newline character. -/
def rstripNl (line : Tok) : Tok :=
  (line.reverse.dropWhile (fun c => c = '\n')).reverse

/-- `re.match("^$", line)` used by the blank-line checks of
`_gather_token_count` (w2v.py:105) and `_write_file` (w2v.py:151): the
pattern `^$` matches at position 0 exactly when the line is empty or is a
single newline (re's `$` also matches just before a trailing `"\n"`). -/
def isBlankLine (line : Tok) : Bool :=
  line = [] || line = ['\n']

/-- `token_str.lower()` (w2v.py:111 and w2v.py:160), per character. -/
def lowerTok (t : Tok) : Tok := t.map Char.toLower

/-- `re.sub("\x5cd", "0", token_str)` (w2v.py:114 and w2v.py:164): replace
every digit character by `'0'`. -/
def foldDigits (t : Tok) : Tok :=
  t.map (fun c => if c.isDigit then '0' else c)

/-- `re.search("\x5cd", k)` as a Boolean (w2v.py:64): does the token
contain a digit character? -/
def hasDigit (t : Tok) : Bool := t.any Char.isDigit

/-- The per-token normalization performed inside the counting loop of
`_gather_token_count` (w2v.py:108-114): lowercase if requested, then fold
digits if requested. -/
def gatherTokenNorm (lowercase replace_digits : Bool) (tok : Tok) : Tok :=
  let t1 := if lowercase then lowerTok tok else tok
  if replace_digits then foldDigits t1 else t1

/-- The per-token normalization performed inside the rewriting loop of
`_write_file` (w2v.py:155-164), before singleton substitution: lowercase if
requested, then fold digits if requested.  Structurally identical to
`gatherTokenNorm`, but transcribed from its own source function. -/
def writeFileTokenNorm (lowercase replace_digits : Bool) (tok : Tok) : Tok :=
  let t1 := if lowercase then lowerTok tok else tok
  if replace_digits then foldDigits t1 else t1

/-- The normalization the counting phase applies under a `prep_w2v` run:
`prep_w2v` forwards its `lowercase` and `replace_digits` arguments to
`_gather_token_count` (w2v.py:47-48). -/
def prepGatherNorm (lowercase replace_digits : Bool) : Tok → Tok :=
  gatherTokenNorm lowercase replace_digits

/-- The normalization the rewriting phase applies under a `prep_w2v` run:
`prep_w2v` invokes `_write_file(file_path_list, singletons_file_path,
document_output_path)` (w2v.py:83-84) WITHOUT passing `lowercase` or
`replace_digits`, so `_write_file` always runs with its defaults
`lowercase=True, replace_digits=True` (w2v.py:126), whatever flags the
caller of `prep_w2v` supplied. -/
def prepWriteNorm (lowercase replace_digits : Bool) : Tok → Tok :=
  writeFileTokenNorm true true

/-- The unknown-token marker substituted by `_write_file` (w2v.py:168). -/
def unkMarker : Tok := "#unk#".data

/-! ## Python dict with insertion order (`defaultdict(int)`) -/

/-- A Python `dict` mapping tokens to counts, as an insertion-ordered
association list with unique keys. -/
abbrev CountTable := List (Tok × ℕ)

/-- `d[k] += v` on a `defaultdict(int)`: update the existing entry in
place, or append a fresh entry with value `0 + v` at the end. -/
def dictAdd : CountTable → Tok → ℕ → CountTable
  | [], k, v => [(k, v)]
  | (k', v') :: rest, k, v =>
    if k' = k then (k', v' + v) :: rest else (k', v') :: dictAdd rest k v

/-- `d[k]` with the `defaultdict(int)` default `0` for a missing key. -/
def dictLookup : CountTable → Tok → ℕ
  | [], _ => 0
  | (k', v') :: rest, t => if k' = t then v' else dictLookup rest t

/-- Sum of the values stored in a table (`sum(d.values())`). -/
def sumValues (d : CountTable) : ℕ := (d.map Prod.snd).sum

/-- Total value attached to key `t` across all entries of a table
(coincides with `dictLookup` when the keys are unique). -/
def entrySum : CountTable → Tok → ℕ
  | [], _ => 0
  | (k', v') :: rest, t => (if k' = t then v' else 0) + entrySum rest t

/-! ## Token Counter: `_gather_token_count` (w2v.py:90-121) -/

/-- Processing of one raw line by the counting loop: skip the line if
`re.match("^$", line)`, otherwise split `line.rstrip("\n")` on spaces and
count each normalized token. -/
def countLine (lowercase replace_digits : Bool) (d : CountTable) (line : Tok) :
    CountTable :=
  if isBlankLine line then d
  else
    (splitOnSpace (rstripNl line)).foldl
      (fun a tok => dictAdd a (gatherTokenNorm lowercase replace_digits tok) 1) d

/-- `_gather_token_count` on the lines of one document: the per-document
token-count table, starting from an empty `defaultdict(int)`. -/
def gatherTokenCount (lowercase replace_digits : Bool) (lines : List Tok) :
    CountTable :=
  lines.foldl (countLine lowercase replace_digits) []

/-! ## Count aggregation (`prep_w2v`, w2v.py:42-60) -/

/-- One step of the inner merging loop (w2v.py:57-59):
`all_tokens[k] += v; token_nb += v`. -/
def mergeStep (a : CountTable × ℕ) (kv : Tok × ℕ) : CountTable × ℕ :=
  (dictAdd a.1 kv.1 kv.2, a.2 + kv.2)

/-- The aggregation loop of `prep_w2v` (w2v.py:53-59): fold every entry of
every per-document result into the global `all_tokens` table while
accumulating the grand total `token_nb`.  Returns `(all_tokens, token_nb)`. -/
def mergeCounts (results : List CountTable) : CountTable × ℕ :=
  results.foldl (fun acc result => result.foldl mergeStep acc) ([], 0)

/-! ## Singleton sampling (`prep_w2v`, w2v.py:62-70) -/

/-- One step of the singleton loop (w2v.py:66-70): if the global count is
exactly 1 and the token has no digit, add it to `singletons_all`, and — if
its uniform draw is `< ratio_unknown` — also to `singletons_sample`. -/
def singletonStep (draws : Tok → ℚ) ( ratio_unknown : ℚ)
    (acc : List Tok × List Tok) (kv : Tok × ℕ) : List Tok × List Tok :=
  if kv.2 = 1 ∧ hasDigit kv.1 = false then
    (acc.1 ++ [kv.1],
     if draws kv.1 < ratio_unknown then acc.2 ++ [kv.1] else acc.2)
  else acc

/-- The singleton loop of `prep_w2v` over the items of the global table:
returns `(singletons_all, singletons_sample)` in iteration order. -/
def buildSingletons (table : CountTable) (draws : Tok → ℚ)
    ( ratio_unknown : ℚ) : List Tok × List Tok :=
  table.foldl (singletonStep draws ratio_unknown) ([], [])

/-! ## Document Rewriter: `_write_file` (w2v.py:124-176) -/

/-- The singleton substitution of `_write_file` (w2v.py:167-168): replace a
(normalized) token by the `"#unk#"` marker when it belongs to the sampled
singleton set. -/
def substSingleton (singletons : List Tok) (tok : Tok) : Tok :=
  if tok ∈ singletons then unkMarker else tok

/-- Processing of one raw line by `_write_file` (w2v.py:148-176): `none`
when the blank-line check skips the line, otherwise the written output line
— the space-join of the normalized, singleton-substituted tokens, plus the
`"\n"` added by `output_file.write("{}\n".format(...))`. -/
def writeLine (singletons : List Tok) (lowercase replace_digits : Bool)
    (line : Tok) : Option Tok :=
  if isBlankLine line then none
  else
    some ((List.intercalate [' ']
      ((splitOnSpace (rstripNl line)).map
        (fun tok => substSingleton singletons
          (writeFileTokenNorm lowercase replace_digits tok)))) ++ ['\n'])

/-- `_write_file` on the lines of one document: the list of output lines. -/
def writeFileLines (singletons : List Tok) (lowercase replace_digits : Bool)
    (lines : List Tok) : List Tok :=
  lines.filterMap (writeLine singletons lowercase replace_digits)

/-! ## Chunk Partitioner: `_chunk_list` (w2v.py:179-188) -/

/-- Python 3 `round` on an exact rational: round half to even.  (CPython
computes `division * i` in binary floating point; the exact-rational model
agrees with it for every list length below `2^52`.) -/
def pyRound (q : ℚ) : ℤ :=
  if q - ⌊q⌋ < 1/2 then ⌊q⌋
  else if 1/2 < q - ⌊q⌋ then ⌊q⌋ + 1
  else if Even ⌊q⌋ then ⌊q⌋ else ⌊q⌋ + 1

/-- The slice boundary `round(division * i)` with
`division = len(the_list) / nb_parts` (w2v.py:187-188), as a natural
number index (it is never negative). -/
def chunkBound (L nb_parts i : ℕ) : ℕ :=
  (pyRound ((L : ℚ) / nb_parts * i)).toNat

/-- `_chunk_list(the_list, nb_parts)`:
`[the_list[round(division*i):round(division*(i+1))] for i in range(nb_parts)]`,
with the Python slice `l[a:b]` transcribed as `(l.take b).drop a`.
(For `nb_parts = 0` CPython raises `ZeroDivisionError` at
`len(the_list) / nb_parts`; the callers below only use `nb_parts ≥ 1`.) -/
def chunkList (the_list : List α) (nb_parts : ℕ) : List (List α) :=
  (List.range nb_parts).map (fun i =>
    (the_list.take (chunkBound the_list.length nb_parts (i+1))).drop
      (chunkBound the_list.length nb_parts i))

/-! ## The driver `prep_w2v` (w2v.py:13-87) -/

/-- The rewrite phase of `prep_w2v` (w2v.py:78-84): chunk the file list
with `_chunk_list`, then run `_write_file` on each chunk.  Outputs are
returned per input document, in file order (each worker writes its files to
disjoint mirrored paths, so the on-disk outcome is exactly this family).
`_write_file` is called without `lowercase`/`replace_digits`, hence with
its defaults `True, True`. -/
def rewritePhase (singletons : List Tok) (docs : List ( List Tok))
    (n_jobs : ℕ) : List (List Tok) :=
  ((chunkList docs n_jobs).map
    (fun chunk => chunk.map (writeFileLines singletons true true))).flatten

/-- The observable result of one `prep_w2v` run. -/
structure PrepResult where
  all_tokens : CountTable
  token_nb : ℕ
  singletons_all : List Tok
  singletons_sample : List Tok
  outputs : List (List Tok)
deriving DecidableEq

/-- The `prep_w2v` pipeline (w2v.py:13-87) on the discovered documents,
each given as its list of raw lines: parallel counting (flags forwarded,
w2v.py:47-48), aggregation (w2v.py:53-59), singleton sampling
(w2v.py:62-70), then the parallel rewrite phase (w2v.py:78-84).  The
filesystem side (directory creation, the `joblib.dump`/`load` round-trip
of `singletons_sample`) is transparent to these values. -/
def prepW2v (docs : List (List Tok)) (n_jobs : ℕ) ( ratio_unknown : ℚ)
    (lowercase replace_digits : Bool) (draws : Tok → ℚ) : PrepResult :=
  let results := docs.map (gatherTokenCount lowercase replace_digits)
  let merged := mergeCounts results
  let singles := buildSingletons merged.1 draws ratio_unknown
  { all_tokens := merged.1
    token_nb := merged.2
    singletons_all := singles.1
    singletons_sample := singles.2
    outputs := rewritePhase singles.2 docs n_jobs }

/-! ## File Discovery (`prep_w2v`, w2v.py:36-40) -/

/-- A directory: its plain files and its named subdirectories. -/
inductive DirTree : Type where
  | node : List String → List (String × DirTree) → DirTree

mutual
/-- `os.walk(path)` over an existing directory tree, top-down: yield
`(root, files)` for the directory itself, then walk each subdirectory. -/
def osWalk (path : String) (t : DirTree) : List (String × List String) :=
  match t with
  | .node files subdirs => (path, files) :: osWalkSubdirs path subdirs

/-- Walk of a list of named subdirectories, in order. -/
def osWalkSubdirs (path : String) (l : List (String × DirTree)) :
    List (String × List String) :=
  match l with
  | [] => []
  | (name, t) :: rest => osWalk (path ++ "/" ++ name) t ++ osWalkSubdirs path rest
end

/-- `os.walk` as called on `prep_w2v`'s input path, where the path may not
exist (`none`).  CPython's `os.walk` is a generator built on `os.scandir`
with the default `onerror=None`: when the path does not exist the
`FileNotFoundError` from `scandir` is caught and silently dropped, and the
generator yields nothing — no exception escapes. -/
def osWalkOpt (path : String) (fs : Option DirTree) :
    List (String × List String) :=
  match fs with
  | none => []
  | some t => osWalk path t

/-- `re.match("^.*\x5c.txt$", filename)` (w2v.py:38) on a newline-free
file name: the name ends with `".txt"`. -/
def matchesTxtName (filename : String) : Bool := filename.endsWith ".txt"

/-- The file-collection loop of `prep_w2v` (w2v.py:36-40): for every walked
directory, keep the file names matching the `.txt` pattern, producing
`(root, filename)` work items.  (The third component `subdir` built by
`remove_abs`/`re.sub` only determines the mirrored output path and is not
needed by any claim.)  The loop has no failure path: a nonexistent input
directory yields the empty list. -/
def fileDiscovery (inputRoot : String) (fs : Option DirTree) :
    List (String × String) :=
  ((osWalkOpt inputRoot fs).map
    (fun rf => (rf.2.filter matchesTxtName).map (fun f => (rf.1, f)))).flatten

/-! ## Lemmas: `pyRound` -/

lemma le_pyRound (q : ℚ) : q - 1/2 ≤ (pyRound q : ℚ) := by
  have h2 := Int.lt_floor_add_one q
  unfold pyRound
  split_ifs with ha hb hc
  · linarith
  · push_cast
    linarith
  · have hb' := not_lt.mp hb
    linarith
  · push_cast
    linarith

lemma pyRound_le (q : ℚ) : (pyRound q : ℚ) ≤ q + 1/2 := by
  have h1 := Int.floor_le q
  unfold pyRound
  split_ifs with ha hb hc
  · linarith
  · push_cast
    linarith
  · linarith
  · have ha' := not_lt.mp ha
    push_cast
    linarith

lemma pyRound_mono {x y : ℚ} (h : x ≤ y) : pyRound x ≤ pyRound y := by
  by_contra hc
  push_neg at hc
  have hcast : (pyRound y : ℚ) + 1 ≤ (pyRound x : ℚ) := by exact_mod_cast hc
  have h1 := le_pyRound y
  have h2 := pyRound_le x
  have hxy : y ≤ x := by linarith
  have heq : x = y := le_antisymm h hxy
  rw [heq] at hc
  exact lt_irrefl _ hc

lemma pyRound_intCast (z : ℤ) : pyRound (z : ℚ) = z := by
  unfold pyRound
  rw [Int.floor_intCast]
  norm_num

lemma pyRound_nonneg {q : ℚ} (h : 0 ≤ q) : 0 ≤ pyRound q := by
  by_contra hc
  push_neg at hc
  have hle : pyRound q + 1 ≤ 0 := hc
  have hle' : (pyRound q : ℚ) + 1 ≤ 0 := by exact_mod_cast hle
  have h1 := le_pyRound q
  linarith

/-! ## Lemmas: `chunkBound` and `chunkList` -/

lemma chunkBound_cast (L n i : ℕ) :
    ((chunkBound L n i : ℕ) : ℤ) = pyRound ((L : ℚ) / n * i) := by
  unfold chunkBound
  exact Int.toNat_of_nonneg (pyRound_nonneg (by positivity))

lemma chunkBound_zero (L n : ℕ) : chunkBound L n 0 = 0 := by
  unfold chunkBound
  have h : (L : ℚ) / n * ((0 : ℕ) : ℚ) = ((0 : ℤ) : ℚ) := by push_cast; ring
  rw [h, pyRound_intCast]
  rfl

lemma chunkBound_succ_le (L n i : ℕ) : chunkBound L n i ≤ chunkBound L n (i+1) := by
  unfold chunkBound
  refine Int.toNat_le_toNat (pyRound_mono ?_)
  have hd : (0 : ℚ) ≤ (L : ℚ) / n := by positivity
  push_cast
  nlinarith

lemma chunkBound_mono (L n : ℕ) : Monotone (chunkBound L n) :=
  monotone_nat_of_le_succ (chunkBound_succ_le L n)

lemma chunkBound_self (L n : ℕ) (hn : n ≠ 0) : chunkBound L n n = L := by
  unfold chunkBound
  have hn' : ((n : ℕ) : ℚ) ≠ 0 := Nat.cast_ne_zero.mpr hn
  have h : (L : ℚ) / n * ((n : ℕ) : ℚ) = ((L : ℤ) : ℚ) := by
    push_cast
    rw [div_mul_cancel₀ _ hn']
  rw [h, pyRound_intCast]
  simp

lemma chunkBound_le (L n i : ℕ) (hn : n ≠ 0) (hi : i ≤ n) : chunkBound L n i ≤ L := by
  calc chunkBound L n i ≤ chunkBound L n n := chunkBound_mono L n hi
    _ = L := chunkBound_self L n hn

lemma flatten_slices (l : List α) (b : ℕ → ℕ) (hm : ∀ i, b i ≤ b (i+1))
    (h0 : b 0 = 0) :
    ∀ m, ((List.range m).map (fun i => (l.take (b (i+1))).drop (b i))).flatten
      = l.take (b m) := by
  intro m
  induction m with
  | zero => simp [h0]
  | succ m ih =>
    rw [List.range_succ, List.map_append, List.flatten_append]
    simp only [List.map_cons, List.map_nil, List.flatten_cons, List.flatten_nil,
      List.append_nil]
    rw [ih]
    have h1 : (l.take (b (m+1))).take (b m) = l.take (b m) := by
      rw [List.take_take, min_eq_left (hm m)]
    calc l.take (b m) ++ (l.take (b (m+1))).drop (b m)
        = (l.take (b (m+1))).take (b m) ++ (l.take (b (m+1))).drop (b m) := by
          rw [h1]
      _ = l.take (b (m+1)) := List.take_append_drop _ _

lemma chunkList_flatten (l : List α) (n : ℕ) (hn : 1 ≤ n) :
    (chunkList l n).flatten = l := by
  unfold chunkList
  rw [flatten_slices l _ (chunkBound_succ_le l.length n) (chunkBound_zero l.length n) n]
  rw [chunkBound_self l.length n (by omega), List.take_length]

lemma chunkList_length (l : List α) (n : ℕ) : (chunkList l n).length = n := by
  simp [chunkList]

lemma chunk_slice_length (l : List α) (n i : ℕ) (hn : n ≠ 0) (hi : i < n) :
    ((l.take (chunkBound l.length n (i+1))).drop (chunkBound l.length n i)).length
      = chunkBound l.length n (i+1) - chunkBound l.length n i := by
  rw [List.length_drop, List.length_take]
  have h1 : chunkBound l.length n (i+1) ≤ l.length :=
    chunkBound_le _ _ _ hn (by omega)
  rw [min_eq_left h1]

lemma chunk_size_le (L n i j : ℕ) :
    chunkBound L n (i+1) - chunkBound L n i
      ≤ (chunkBound L n (j+1) - chunkBound L n j) + 1 := by
  have hcast : ∀ k : ℕ, ((chunkBound L n k : ℕ) : ℤ) = pyRound ((L : ℚ) / n * k) :=
    fun k => chunkBound_cast L n k
  have hmono : ∀ k : ℕ, chunkBound L n k ≤ chunkBound L n (k+1) :=
    chunkBound_succ_le L n
  have hd0 : (0 : ℚ) ≤ (L : ℚ) / n := by positivity
  by_cases hint : ((⌊(L : ℚ) / n⌋ : ℤ) : ℚ) = (L : ℚ) / n
  · have hb : ∀ k : ℕ, (chunkBound L n k : ℤ) = ⌊(L : ℚ) / n⌋ * k := by
      intro k
      rw [hcast k]
      have h : (L : ℚ) / n * k = ((⌊(L : ℚ) / n⌋ * k : ℤ) : ℚ) := by
        push_cast
        rw [hint]
      rw [h, pyRound_intCast]
    have hsame : ∀ k : ℕ, (chunkBound L n (k+1) : ℤ) - chunkBound L n k
        = ⌊(L : ℚ) / n⌋ := by
      intro k
      rw [hb (k+1), hb k]
      push_cast
      ring
    have hi' := hsame i
    have hj' := hsame j
    have mi := hmono i
    have mj := hmono j
    omega
  · have hlt : ((⌊(L : ℚ) / n⌋ : ℤ) : ℚ) < (L : ℚ) / n :=
      lt_of_le_of_ne (Int.floor_le _) hint
    have hup : (L : ℚ) / n < ((⌊(L : ℚ) / n⌋ : ℤ) : ℚ) + 1 := Int.lt_floor_add_one _
    have key : ∀ k : ℕ,
        ⌊(L : ℚ) / n⌋ ≤ (chunkBound L n (k+1) : ℤ) - chunkBound L n k ∧
        (chunkBound L n (k+1) : ℤ) - chunkBound L n k ≤ ⌊(L : ℚ) / n⌋ + 1 := by
      intro k
      have e1 : ((chunkBound L n k : ℕ) : ℚ) = (pyRound ((L : ℚ) / n * k) : ℚ) := by
        exact_mod_cast hcast k
      have e2 : ((chunkBound L n (k+1) : ℕ) : ℚ)
          = (pyRound ((L : ℚ) / n * (k+1)) : ℚ) := by
        exact_mod_cast hcast (k+1)
      have b1 := le_pyRound ((L : ℚ) / n * k)
      have b2 := pyRound_le ((L : ℚ) / n * k)
      have b3 := le_pyRound ((L : ℚ) / n * (k+1))
      have b4 := pyRound_le ((L : ℚ) / n * (k+1))
      have low : (L : ℚ) / n - 1
          ≤ ((chunkBound L n (k+1) : ℕ) : ℚ) - ((chunkBound L n k : ℕ) : ℚ) := by
        rw [e1, e2]
        push_cast at b2 b3
        linarith
      have high : ((chunkBound L n (k+1) : ℕ) : ℚ) - ((chunkBound L n k : ℕ) : ℚ)
          ≤ (L : ℚ) / n + 1 := by
        rw [e1, e2]
        push_cast at b1 b4
        linarith
      constructor
      · have hq : ((⌊(L : ℚ) / n⌋ : ℤ) : ℚ) - 1
            < ((chunkBound L n (k+1) : ℕ) : ℚ) - ((chunkBound L n k : ℕ) : ℚ) := by
          linarith
        have hz : (⌊(L : ℚ) / n⌋ : ℤ) - 1
            < (chunkBound L n (k+1) : ℤ) - (chunkBound L n k : ℤ) := by
          exact_mod_cast hq
        omega
      · have hq : ((chunkBound L n (k+1) : ℕ) : ℚ) - ((chunkBound L n k : ℕ) : ℚ)
            < ((⌊(L : ℚ) / n⌋ : ℤ) : ℚ) + 2 := by
          linarith
        have hz : (chunkBound L n (k+1) : ℤ) - (chunkBound L n k : ℤ)
            < (⌊(L : ℚ) / n⌋ : ℤ) + 2 := by
          exact_mod_cast hq
        omega
    have ki := key i
    have kj := key j
    have mi := hmono i
    have mj := hmono j
    omega

/-! ## Lemmas: dict operations -/

lemma dictLookup_dictAdd (d : CountTable) (k : Tok) (v : ℕ) (t : Tok) :
    dictLookup (dictAdd d k v) t = dictLookup d t + (if k = t then v else 0) := by
  induction d with
  | nil => by_cases h : k = t <;> simp [dictAdd, dictLookup, h]
  | cons kv rest ih =>
    obtain ⟨k', v'⟩ := kv
    by_cases h1 : k' = k
    · subst h1
      by_cases h2 : k' = t
      · subst h2
        simp [dictAdd, dictLookup]
      · simp [dictAdd, dictLookup, h2]
    · by_cases h2 : k' = t
      · have h3 : k ≠ t := fun he => h1 (h2.trans he.symm)
        have h4 : ¬(t = k) := fun he => h3 he.symm
        simp [dictAdd, dictLookup, h1, h2, h3, h4]
      · simp [dictAdd, dictLookup, h1, h2, ih]

lemma sumValues_dictAdd (d : CountTable) (k : Tok) (v : ℕ) :
    sumValues (dictAdd d k v) = sumValues d + v := by
  induction d with
  | nil => simp [dictAdd, sumValues]
  | cons kv rest ih =>
    obtain ⟨k', v'⟩ := kv
    by_cases h : k' = k <;>
      simp [dictAdd, sumValues, h] at ih ⊢ <;> omega

lemma dictAdd_keys (d : CountTable) (k : Tok) (v : ℕ) :
    (dictAdd d k v).map Prod.fst
      = if k ∈ d.map Prod.fst then d.map Prod.fst else d.map Prod.fst ++ [k] := by
  induction d with
  | nil => simp [dictAdd]
  | cons kv rest ih =>
    obtain ⟨k', v'⟩ := kv
    by_cases h : k' = k
    · subst h
      simp [dictAdd]
    · have h' : ¬(k = k') := fun he => h he.symm
      by_cases h2 : k ∈ rest.map Prod.fst <;>
        simp [dictAdd, h, h', h2, ih]

lemma dictAdd_nodup {d : CountTable} (h : (d.map Prod.fst).Nodup) (k : Tok) (v : ℕ) :
    ((dictAdd d k v).map Prod.fst).Nodup := by
  rw [dictAdd_keys]
  split_ifs with hm
  · exact h
  · refine List.Nodup.append h (List.nodup_singleton k) ?_
    intro x hx hk
    rw [List.mem_singleton] at hk
    subst hk
    exact hm hx

lemma dictLookup_of_mem {d : CountTable} {k : Tok} {v : ℕ}
    (hmem : (k, v) ∈ d) (hnd : (d.map Prod.fst).Nodup) : dictLookup d k = v := by
  induction d with
  | nil => simp at hmem
  | cons kv rest ih =>
    obtain ⟨k', v'⟩ := kv
    have hnd' := List.nodup_cons.mp hnd
    rcases List.mem_cons.mp hmem with he | hm
    · rw [Prod.mk.injEq] at he
      obtain ⟨h1, h2⟩ := he
      subst h1
      subst h2
      simp [dictLookup]
    · have hk : k ∈ rest.map Prod.fst := List.mem_map.mpr ⟨(k, v), hm, rfl⟩
      have hk' : ¬(k' = k) := fun he => hnd'.1 (he ▸ hk)
      simp only [dictLookup, if_neg hk']
      exact ih hm hnd'.2

lemma entrySum_of_not_mem {d : CountTable} {t : Tok}
    (h : t ∉ d.map Prod.fst) : entrySum d t = 0 := by
  induction d with
  | nil => rfl
  | cons kv rest ih =>
    obtain ⟨k', v'⟩ := kv
    simp only [List.map_cons, List.mem_cons, not_or] at h
    have hne : ¬(k' = t) := fun he => h.1 he.symm
    simp only [entrySum, if_neg hne, ih h.2]

lemma entrySum_eq_dictLookup {d : CountTable}
    (hnd : (d.map Prod.fst).Nodup) (t : Tok) : entrySum d t = dictLookup d t := by
  induction d with
  | nil => rfl
  | cons kv rest ih =>
    obtain ⟨k', v'⟩ := kv
    have hnd' := List.nodup_cons.mp hnd
    by_cases h : k' = t
    · subst h
      have hz : entrySum rest k' = 0 := entrySum_of_not_mem hnd'.1
      simp [entrySum, dictLookup, hz]
    · simp only [entrySum, dictLookup, if_neg h, zero_add]
      exact ih hnd'.2

/-! ## Lemmas: aggregation (`mergeCounts`) -/

lemma innerFold_fst_lookup (r : CountTable) (a : CountTable × ℕ) (t : Tok) :
    dictLookup (r.foldl mergeStep a).1 t = dictLookup a.1 t + entrySum r t := by
  induction r generalizing a with
  | nil => simp [entrySum]
  | cons kv rest ih =>
    simp only [List.foldl_cons]
    rw [ih]
    show dictLookup (dictAdd a.1 kv.1 kv.2) t + entrySum rest t = _
    rw [dictLookup_dictAdd]
    show _ = dictLookup a.1 t + ((if kv.1 = t then kv.2 else 0) + entrySum rest t)
    ring

lemma innerFold_snd (r : CountTable) (a : CountTable × ℕ) :
    (r.foldl mergeStep a).2 = a.2 + sumValues r := by
  induction r generalizing a with
  | nil => simp [sumValues]
  | cons kv rest ih =>
    simp only [List.foldl_cons]
    rw [ih]
    show (a.2 + kv.2) + sumValues rest = _
    simp [sumValues]
    ring

lemma innerFold_fst_sumValues (r : CountTable) (a : CountTable × ℕ) :
    sumValues (r.foldl mergeStep a).1 = sumValues a.1 + sumValues r := by
  induction r generalizing a with
  | nil => simp [sumValues]
  | cons kv rest ih =>
    simp only [List.foldl_cons]
    rw [ih]
    show sumValues (dictAdd a.1 kv.1 kv.2) + sumValues rest = _
    rw [sumValues_dictAdd]
    simp [sumValues]
    ring

lemma mergeFold_fst_lookup (results : List CountTable) (a : CountTable × ℕ) (t : Tok) :
    dictLookup (results.foldl (fun acc result => result.foldl mergeStep acc) a).1 t
      = dictLookup a.1 t + (results.map (fun r => entrySum r t)).sum := by
  induction results generalizing a with
  | nil => simp
  | cons r rest ih =>
    simp only [List.foldl_cons, List.map_cons, List.sum_cons]
    rw [ih, innerFold_fst_lookup]
    ring

lemma mergeFold_snd (results : List CountTable) (a : CountTable × ℕ) :
    (results.foldl (fun acc result => result.foldl mergeStep acc) a).2
      = a.2 + (results.map sumValues).sum := by
  induction results generalizing a with
  | nil => simp
  | cons r rest ih =>
    simp only [List.foldl_cons, List.map_cons, List.sum_cons]
    rw [ih, innerFold_snd]
    ring

lemma mergeFold_fst_sumValues (results : List CountTable) (a : CountTable × ℕ) :
    sumValues (results.foldl (fun acc result => result.foldl mergeStep acc) a).1
      = sumValues a.1 + (results.map sumValues).sum := by
  induction results generalizing a with
  | nil => simp
  | cons r rest ih =>
    simp only [List.foldl_cons, List.map_cons, List.sum_cons]
    rw [ih, innerFold_fst_sumValues]
    ring

lemma mergeCounts_lookup (results : List CountTable) (t : Tok) :
    dictLookup (mergeCounts results).1 t
      = (results.map (fun r => entrySum r t)).sum := by
  unfold mergeCounts
  rw [mergeFold_fst_lookup]
  simp [dictLookup]

lemma mergeCounts_snd_eq_sumValues (results : List CountTable) :
    (mergeCounts results).2 = sumValues (mergeCounts results).1 := by
  unfold mergeCounts
  rw [mergeFold_snd, mergeFold_fst_sumValues]
  simp [sumValues]

lemma innerFold_fst_nodup (r : CountTable) (a : CountTable × ℕ)
    (h : (a.1.map Prod.fst).Nodup) :
    (((r.foldl mergeStep a).1).map Prod.fst).Nodup := by
  induction r generalizing a with
  | nil => exact h
  | cons kv rest ih =>
    simp only [List.foldl_cons]
    exact ih (mergeStep a kv) (dictAdd_nodup h kv.1 kv.2)

lemma mergeCounts_nodup (results : List CountTable) :
    (((mergeCounts results).1).map Prod.fst).Nodup := by
  suffices h : ∀ (rs : List CountTable) (a : CountTable × ℕ),
      (a.1.map Prod.fst).Nodup →
      (((rs.foldl (fun acc result => result.foldl mergeStep acc) a).1).map
        Prod.fst).Nodup by
    exact h results ([], 0) (by simp)
  intro rs
  induction rs with
  | nil => exact fun a h => h
  | cons r rest ih =>
    intro a h
    simp only [List.foldl_cons]
    exact ih _ (innerFold_fst_nodup r a h)

lemma countFold_nodup (toks : List Tok) (f : Tok → Tok) (d : CountTable)
    (h : (d.map Prod.fst).Nodup) :
    ((toks.foldl (fun a tok => dictAdd a (f tok) 1) d).map Prod.fst).Nodup := by
  induction toks generalizing d with
  | nil => exact h
  | cons tok rest ih =>
    simp only [List.foldl_cons]
    exact ih _ (dictAdd_nodup h (f tok) 1)

lemma countLine_nodup (lowercase replace_digits : Bool) (d : CountTable)
    (line : Tok) (h : (d.map Prod.fst).Nodup) :
    ((countLine lowercase replace_digits d line).map Prod.fst).Nodup := by
  unfold countLine
  split_ifs with hb
  · exact h
  · exact countFold_nodup _ _ d h

lemma gatherTokenCount_nodup (lowercase replace_digits : Bool) (lines : List Tok) :
    ((gatherTokenCount lowercase replace_digits lines).map Prod.fst).Nodup := by
  unfold gatherTokenCount
  suffices h : ∀ (ls : List Tok) (d : CountTable), (d.map Prod.fst).Nodup →
      ((ls.foldl (countLine lowercase replace_digits) d).map Prod.fst).Nodup by
    exact h lines [] (by simp)
  intro ls
  induction ls with
  | nil => exact fun d h => h
  | cons line rest ih =>
    intro d h
    simp only [List.foldl_cons]
    exact ih _ (countLine_nodup _ _ d line h)

/-! ## Lemmas: singleton sampling (`buildSingletons`) -/

lemma singletonFold_sample_subset (l : CountTable) (draws : Tok → ℚ) (r : ℚ)
    (acc : List Tok × List Tok) (h : acc.2 ⊆ acc.1) :
    (l.foldl (singletonStep draws r) acc).2 ⊆ (l.foldl (singletonStep draws r) acc).1 := by
  induction l generalizing acc with
  | nil => exact h
  | cons kv rest ih =>
    simp only [List.foldl_cons]
    apply ih
    unfold singletonStep
    split_ifs with h1 h2
    · intro x hx
      rcases List.mem_append.mp hx with hx1 | hx2
      · exact List.mem_append_left _ (h hx1)
      · exact List.mem_append_right _ hx2
    · intro x hx
      exact List.mem_append_left _ (h hx)
    · exact h

lemma singletonFold_all_origin (l : CountTable) (draws : Tok → ℚ) (r : ℚ)
    (acc : List Tok × List Tok) (t : Tok)
    (ht : t ∈ (l.foldl (singletonStep draws r) acc).1) :
    t ∈ acc.1 ∨ ∃ kv ∈ l, kv.1 = t ∧ kv.2 = 1 ∧ hasDigit t = false := by
  induction l generalizing acc with
  | nil => exact Or.inl ht
  | cons kv rest ih =>
    simp only [List.foldl_cons] at ht
    rcases ih _ ht with hacc | ⟨kv', hkv', hp⟩
    · unfold singletonStep at hacc
      split_ifs at hacc with h1 h2
      · rcases List.mem_append.mp hacc with h | h
        · exact Or.inl h
        · rw [List.mem_singleton] at h
          subst h
          exact Or.inr ⟨kv, List.mem_cons_self kv rest, rfl, h1.1, h1.2⟩
      · rcases List.mem_append.mp hacc with h | h
        · exact Or.inl h
        · rw [List.mem_singleton] at h
          subst h
          exact Or.inr ⟨kv, List.mem_cons_self kv rest, rfl, h1.1, h1.2⟩
      · exact Or.inl hacc
    · exact Or.inr ⟨kv', List.mem_cons_of_mem _ hkv', hp⟩

lemma singletonFold_sample_of_nonpos (l : CountTable) (draws : Tok → ℚ) (r : ℚ)
    (hd : ∀ t, 0 ≤ draws t) (hr : r ≤ 0) (acc : List Tok × List Tok) :
    (l.foldl (singletonStep draws r) acc).2 = acc.2 := by
  induction l generalizing acc with
  | nil => rfl
  | cons kv rest ih =>
    simp only [List.foldl_cons]
    rw [ih]
    unfold singletonStep
    split_ifs with h1 h2
    · exact absurd (lt_of_lt_of_le h2 hr) (not_lt.mpr (hd kv.1))
    · rfl
    · rfl

lemma singletonFold_sample_of_one_le (l : CountTable) (draws : Tok → ℚ) (r : ℚ)
    (hd : ∀ t, draws t < 1) (hr : 1 ≤ r) (acc : List Tok × List Tok)
    (h : acc.1 = acc.2) :
    (l.foldl (singletonStep draws r) acc).1 = (l.foldl (singletonStep draws r) acc).2 := by
  induction l generalizing acc with
  | nil => exact h
  | cons kv rest ih =>
    simp only [List.foldl_cons]
    apply ih
    unfold singletonStep
    split_ifs with h1 h2
    · simp [h]
    · exact absurd (lt_of_lt_of_le (hd kv.1) hr) h2
    · exact h

/-! ## Lemmas: whitespace-only lines -/

lemma dropWhile_nl_of_spaces (l : Tok) (hsp : ∀ c ∈ l, c = ' ') :
    l.dropWhile (fun c => c = '\n') = l := by
  cases l with
  | nil => rfl
  | cons c rest =>
    have hc : c = ' ' := hsp c (List.mem_cons_self c rest)
    subst hc
    rw [List.dropWhile_cons]
    simp

lemma rstripNl_space_line {cs : Tok} (hsp : ∀ c ∈ cs, c = ' ') :
    rstripNl (cs ++ ['\n']) = cs := by
  unfold rstripNl
  rw [List.reverse_append]
  simp only [List.reverse_cons, List.reverse_nil, List.nil_append,
    List.singleton_append]
  rw [List.dropWhile_cons]
  simp only [decide_True, if_true]
  rw [dropWhile_nl_of_spaces cs.reverse (fun c hc => hsp c (List.mem_reverse.mp hc))]
  exact List.reverse_reverse cs

lemma isBlankLine_space_line {cs : Tok} (hne : cs ≠ []) :
    isBlankLine (cs ++ ['\n']) = false := by
  unfold isBlankLine
  cases cs with
  | nil => exact absurd rfl hne
  | cons c rest => simp

lemma nil_mem_splitOnSpace {cs : Tok} (hne : cs ≠ []) (hsp : ∀ c ∈ cs, c = ' ') :
    [] ∈ splitOnSpace cs := by
  cases cs with
  | nil => exact absurd rfl hne
  | cons c rest =>
    have hc : c = ' ' := hsp c (List.mem_cons_self c rest)
    subst hc
    simp [splitOnSpace]

lemma gatherTokenNorm_nil (lowercase replace_digits : Bool) :
    gatherTokenNorm lowercase replace_digits [] = [] := by
  unfold gatherTokenNorm lowerTok foldDigits
  cases lowercase <;> cases replace_digits <;> simp

lemma countFold_lookup_le (toks : List Tok) (f : Tok → Tok) (d : CountTable)
    (t : Tok) :
    dictLookup d t ≤ dictLookup (toks.foldl (fun a tok => dictAdd a (f tok) 1) d) t := by
  induction toks generalizing d with
  | nil => exact le_refl _
  | cons tok rest ih =>
    simp only [List.foldl_cons]
    refine le_trans ?_ (ih _)
    rw [dictLookup_dictAdd]
    exact Nat.le_add_right _ _

lemma countFold_lookup_of_mem (toks : List Tok) (f : Tok → Tok) (d : CountTable)
    (t : Tok) (h : t ∈ toks) :
    1 ≤ dictLookup (toks.foldl (fun a tok => dictAdd a (f tok) 1) d) (f t) := by
  induction toks generalizing d with
  | nil => simp at h
  | cons tok rest ih =>
    simp only [List.foldl_cons]
    rcases List.mem_cons.mp h with rfl | hm
    · refine le_trans ?_ (countFold_lookup_le rest f _ (f t))
      rw [dictLookup_dictAdd]
      simp
    · exact ih _ hm

/-! ## Lemmas: the rewrite phase -/

lemma chunkList_one (l : List α) : chunkList l 1 = [l] := by
  unfold chunkList
  rw [show List.range 1 = [0] from rfl]
  simp only [List.map_cons, List.map_nil]
  have h1 : chunkBound l.length 1 (0+1) = l.length :=
    chunkBound_self l.length 1 one_ne_zero
  rw [h1, chunkBound_zero]
  simp

lemma rewritePhase_eq_map (singletons : List Tok) (docs : List (List Tok))
    (n : ℕ) (hn : 1 ≤ n) :
    rewritePhase singletons docs n = docs.map (writeFileLines singletons true true) := by
  unfold rewritePhase
  rw [← List.map_flatten, chunkList_flatten docs n hn]

/-! ## Claim theorems -/

/-- C1 (code bug in w2v.py): the claim states that under every run of
`prep_w2v`, whatever `lowercase`/`replace_digits` flags are supplied, the
rewrite phase applies the same normalization to each raw token as the
counting phase.  The code violates this: `prep_w2v` forwards the flags to
`_gather_token_count` (w2v.py:47-48) but calls `_write_file` without them
(w2v.py:83-84), so rewriting always normalizes with the defaults
`True, True`.  At the failing input `lowercase=False, replace_digits=True`
on the raw token `"A"`, counting produces `"A"` while rewriting produces
`"a"`, so the two phases diverge. -/
theorem c1_flags_not_forwarded :
    prepGatherNorm false true ['A'] = ['A'] ∧
    prepWriteNorm false true ['A'] = ['a'] ∧
    prepGatherNorm false true ['A'] ≠ prepWriteNorm false true ['A'] := by
  decide

/-- C2: for every list and every `n ≥ 1`, `_chunk_list` returns exactly `n`
chunks delimited by the positions `round(len/n * i)`; concatenating them in
order reproduces the list exactly, and any two chunk sizes differ by at
most one — including when `n` exceeds the list length and when the length
is not divisible by `n`. -/
theorem c2_chunkList_partition (l : List α) (n : ℕ) (hn : 1 ≤ n) :
    (chunkList l n).length = n ∧
    (chunkList l n).flatten = l ∧
    ∀ c1 ∈ chunkList l n, ∀ c2 ∈ chunkList l n, c1.length ≤ c2.length + 1 := by
  refine ⟨chunkList_length l n, chunkList_flatten l n hn, ?_⟩
  intro c1 h1 c2 h2
  simp only [chunkList, List.mem_map, List.mem_range] at h1 h2
  obtain ⟨i, hi, rfl⟩ := h1
  obtain ⟨j, hj, rfl⟩ := h2
  rw [chunk_slice_length l n i (by omega) hi, chunk_slice_length l n j (by omega) hj]
  exact chunk_size_le l.length n i j

/-- Witness for `c2_chunkList_partition` at `L = [0,1,2,3,4]`, `n = 3`. -/
theorem c2_chunkList_partition_witness :
    1 ≤ 3 ∧
    ((chunkList ([0,1,2,3,4] : List ℕ) 3).length = 3 ∧
     (chunkList ([0,1,2,3,4] : List ℕ) 3).flatten = [0,1,2,3,4] ∧
     ∀ c1 ∈ chunkList ([0,1,2,3,4] : List ℕ) 3,
       ∀ c2 ∈ chunkList ([0,1,2,3,4] : List ℕ) 3, c1.length ≤ c2.length + 1) :=
  ⟨by norm_num, c2_chunkList_partition [0,1,2,3,4] 3 (by norm_num)⟩

/-- C3: for the per-document token-count tables produced by the counting
phase, the aggregation loop of `prep_w2v` yields a global table in which
every token's count is the sum over documents of that document's count of
the token, and `token_nb` equals the sum of all global counts. -/
theorem c3_aggregation_lossless_sum (docs : List (List Tok))
    (lowercase replace_digits : Bool) (t : Tok) :
    dictLookup (mergeCounts (docs.map (gatherTokenCount lowercase replace_digits))).1 t
      = ((docs.map (gatherTokenCount lowercase replace_digits)).map
          (fun r => dictLookup r t)).sum ∧
    (mergeCounts (docs.map (gatherTokenCount lowercase replace_digits))).2
      = sumValues (mergeCounts (docs.map (gatherTokenCount lowercase replace_digits))).1 := by
  constructor
  · rw [mergeCounts_lookup]
    congr 1
    apply List.map_congr_left
    intro r hr
    obtain ⟨lines, hlines, rfl⟩ := List.mem_map.mp hr
    exact entrySum_eq_dictLookup
      (gatherTokenCount_nodup lowercase replace_digits lines) t
  · exact mergeCounts_snd_eq_sumValues _

/-- C4: for every global frequency table built by the aggregation and every
`ratio_unknown`, every token of the sampled-singletons set is in the
all-singletons set, and every token of the all-singletons set has global
count exactly 1 and contains no digit character; the sampled set is a
subset of that digit-free frequency-1 subset. -/
theorem c4_singleton_subset_invariant (results : List CountTable)
    (draws : Tok → ℚ) ( ratio_unknown : ℚ) (t : Tok) :
    (t ∈ (buildSingletons (mergeCounts results).1 draws ratio_unknown).2 →
      t ∈ (buildSingletons (mergeCounts results).1 draws ratio_unknown).1) ∧
    (t ∈ (buildSingletons (mergeCounts results).1 draws ratio_unknown).1 →
      dictLookup (mergeCounts results).1 t = 1 ∧ hasDigit t = false) := by
  constructor
  · intro h
    unfold buildSingletons at h ⊢
    exact singletonFold_sample_subset _ draws ratio_unknown ([], []) (by simp) h
  · intro h
    unfold buildSingletons at h
    rcases singletonFold_all_origin _ draws ratio_unknown ([], []) t h with
      h0 | ⟨kv, hkv, h1, h2, h3⟩
    · simp at h0
    · have hmem : (t, 1) ∈ (mergeCounts results).1 := by
        have he : kv = (t, 1) := Prod.ext h1 h2
        rwa [he] at hkv
      exact ⟨dictLookup_of_mem hmem (mergeCounts_nodup results), h3⟩

/-- C5: with every draw uniform in `[0, 1)`: `ratio_unknown = 0.0` makes
the sampled-singletons set empty regardless of the all-singletons size, and
`ratio_unknown = 1.0` makes the sampled-singletons set equal to the
all-singletons set exactly. -/
theorem c5_ratio_extremes (table : CountTable) (draws : Tok → ℚ)
    (h : ∀ t, 0 ≤ draws t ∧ draws t < 1) :
    (buildSingletons table draws 0).2 = [] ∧
    (buildSingletons table draws 1).2 = (buildSingletons table draws 1).1 := by
  constructor
  · unfold buildSingletons
    exact singletonFold_sample_of_nonpos table draws 0 (fun t => (h t).1)
      le_rfl ([], [])
  · unfold buildSingletons
    exact (singletonFold_sample_of_one_le table draws 1 (fun t => (h t).2)
      le_rfl ([], []) rfl).symm

/-- Witness for `c5_ratio_extremes`: a two-token table, constant draw 1/2. -/
theorem c5_ratio_extremes_witness :
    (∀ t : Tok, 0 ≤ (fun _ : Tok => (1:ℚ)/2) t ∧ (fun _ : Tok => (1:ℚ)/2) t < 1) ∧
    ((buildSingletons [(['b'], 1), (['a'], 2)] (fun _ : Tok => (1:ℚ)/2) 0).2 = [] ∧
     (buildSingletons [(['b'], 1), (['a'], 2)] (fun _ : Tok => (1:ℚ)/2) 1).2
       = (buildSingletons [(['b'], 1), (['a'], 2)] (fun _ : Tok => (1:ℚ)/2) 1).1) :=
  ⟨fun t => by norm_num, c5_ratio_extremes _ _ (fun t => by norm_num)⟩

/-- C6: for the same input documents and the same sampled-singleton set,
the rewrite phase with `n_jobs = 1` produces token-for-token the same
output files as with `n_jobs = 4`: chunking and independent per-chunk
processing do not change any rewritten document. -/
theorem c6_rewrite_njobs_invariant (docs : List (List Tok))
    (singletons : List Tok) :
    rewritePhase singletons docs 1 = rewritePhase singletons docs 4 := by
  rw [rewritePhase_eq_map singletons docs 1 (by norm_num),
      rewritePhase_eq_map singletons docs 4 (by norm_num)]

/-- C7 counterexample: the claim says File Discovery fails with
`NotFoundError` when the input path does not exist; in the code it does
not fail at all.  `os.walk` runs with its default `onerror=None`, which
silently swallows the `scandir` error on a missing directory and yields
nothing, and w2v.py:36-40 contains no raise statement (nor does any
`NotFoundError` class exist in the module) — so discovery on the missing
path `"/data/input"` returns the same empty list as an existing directory
with no matching files, and the run proceeds. -/
theorem c7_missing_dir_no_failure :
    fileDiscovery "/data/input" none = [] ∧
    fileDiscovery "/data/input" (some (DirTree.node [] [])) = [] := by
  constructor <;> rfl

/-- C7 amended: File Discovery does not fail when the input directory does
not exist — it yields the empty list, the same outcome as an existing
directory with no matching files (the non-failure on empty results holds
as claimed); no `NotFoundError` is raised. -/
theorem c7_amended_missing_dir_yields_empty (root : String) :
    fileDiscovery root none = [] ∧
    fileDiscovery root (some (DirTree.node [] [])) = [] := by
  constructor
  · rfl
  · rfl

/-- C8 counterexample: the claim says `prep_w2v` fails with `ConfigError`
on an invalid `n_jobs` or an out-of-range `ratio_unknown`, before any
counting or rewriting work.  In the code, w2v.py:13-30 contains no
validation and no `ConfigError` exists anywhere in the module: with the
out-of-range `ratio_unknown = 2.0` the pipeline runs to completion —
counting happens (`token_nb = 3`), every singleton is sampled, and the
documents are rewritten.  (An invalid `n_jobs = 0` likewise produces no
`ConfigError`: it is rejected only later, inside `joblib.Parallel` /
at the `len(the_list) / nb_parts` division.) -/
theorem c8_no_config_validation :
    (prepW2v [[['a',' ','b','\n'], ['a','\n']]] 1 2 true true
      (fun _ => 0)).token_nb = 3 ∧
    (prepW2v [[['a',' ','b','\n'], ['a','\n']]] 1 2 true true
      (fun _ => 0)).singletons_sample = [['b']] ∧
    (prepW2v [[['a',' ','b','\n'], ['a','\n']]] 1 2 true true
      (fun _ => 0)).outputs
      = [[['a',' ','#','u','n','k','#','\n'], ['a','\n']]] := by
  have hmerge : (mergeCounts ([[['a',' ','b','\n'], ['a','\n']]].map
      (gatherTokenCount true true))).1 = [(['a'],2),(['b'],1)] := by decide
  have hcond_b : (1 = 1 ∧ hasDigit ['b'] = false) := by decide
  have hcond_a : ¬(2 = 1 ∧ hasDigit ['a'] = false) := by decide
  have hlt : ((fun _ : Tok => (0:ℚ)) ['b']) < 2 := by norm_num
  have hsing : buildSingletons [(['a'],2),(['b'],1)] (fun _ : Tok => (0:ℚ)) 2
      = ([['b']], [['b']]) := by
    simp only [buildSingletons, List.foldl_cons, List.foldl_nil, singletonStep,
      if_neg hcond_a, if_pos hcond_b, if_pos hlt]
    simp [hcond_b.2]
  refine ⟨by decide, ?_, ?_⟩
  · show (buildSingletons (mergeCounts ([[['a',' ','b','\n'], ['a','\n']]].map
      (gatherTokenCount true true))).1 (fun _ : Tok => (0:ℚ)) 2).2 = [['b']]
    rw [hmerge, hsing]
  · show rewritePhase (buildSingletons
      (mergeCounts ([[['a',' ','b','\n'], ['a','\n']]].map
        (gatherTokenCount true true))).1 (fun _ : Tok => (0:ℚ)) 2).2
      [[['a',' ','b','\n'], ['a','\n']]] 1
      = [[['a',' ','#','u','n','k','#','\n'], ['a','\n']]]
    rw [hmerge, hsing]
    rw [rewritePhase_eq_map _ _ 1 le_rfl]
    decide

/-- C8 amended: `prep_w2v` performs no configuration validation and never
raises a `ConfigError`; an out-of-range `ratio_unknown` is silently
accepted by the sampling loop — with draws uniform in `[0, 1)`, any
`ratio_unknown ≥ 1` samples every singleton and any `ratio_unknown ≤ 0`
samples none — and the pipeline performs its counting and rewriting work
regardless.  An invalid `n_jobs` is rejected only by the parallel backend
or by the chunking division, not by any check in `prep_w2v`. -/
theorem c8_amended_out_of_range_accepted (table : CountTable)
    (draws : Tok → ℚ) (h : ∀ t, 0 ≤ draws t ∧ draws t < 1)
    ( ratio_unknown : ℚ) :
    (1 ≤ ratio_unknown →
      (buildSingletons table draws ratio_unknown).2
        = (buildSingletons table draws ratio_unknown).1) ∧
    ( ratio_unknown ≤ 0 →
      (buildSingletons table draws ratio_unknown).2 = []) := by
  constructor
  · intro hr
    unfold buildSingletons
    exact (singletonFold_sample_of_one_le table draws _ (fun t => (h t).2)
      hr ([], []) rfl).symm
  · intro hr
    unfold buildSingletons
    exact singletonFold_sample_of_nonpos table draws _ (fun t => (h t).1)
      hr ([], [])

/-- Witness for `c8_amended_out_of_range_accepted` at the out-of-range
`ratio_unknown = 2`. -/
theorem c8_amended_out_of_range_accepted_witness :
    (∀ t : Tok, 0 ≤ (fun _ : Tok => (1:ℚ)/2) t ∧ (fun _ : Tok => (1:ℚ)/2) t < 1) ∧
    ((1 ≤ (2:ℚ) →
      (buildSingletons [(['b'], 1)] (fun _ : Tok => (1:ℚ)/2) 2).2
        = (buildSingletons [(['b'], 1)] (fun _ : Tok => (1:ℚ)/2) 2).1) ∧
     ((2:ℚ) ≤ 0 →
      (buildSingletons [(['b'], 1)] (fun _ : Tok => (1:ℚ)/2) 2).2 = [])) :=
  ⟨fun t => by norm_num,
   c8_amended_out_of_range_accepted _ _ (fun t => by norm_num) 2⟩

/-- C9 counterexample: the claim says no input token's normalization ever
equals the unknown-token marker; but the raw input token `"#UNK#"`
normalizes — under the lowercase + digit-fold normalization `_write_file`
actually runs with — to exactly the marker `"#unk#"` (and the raw token
`"#unk#"` is itself a fixed point of normalization). -/
theorem c9_marker_producible :
    prepWriteNorm true true ['#','U','N','K','#'] = unkMarker ∧
    writeFileTokenNorm true true unkMarker = unkMarker := by
  constructor <;> decide

/-- C9 amended: the unknown-token marker is the fixed literal `"#unk#"`,
but it is NOT distinct from every normalized input token: there exist
input tokens, distinct from the marker itself, whose normalization equals
the marker, so real text can produce it and the code does not reserve or
escape it. -/
theorem c9_amended_marker_not_reserved :
    unkMarker = "#unk#".data ∧
    ∃ t : Tok, t ≠ unkMarker ∧ writeFileTokenNorm true true t = unkMarker := by
  refine ⟨rfl, ⟨['#','U','N','K','#'], ?_, ?_⟩⟩ <;> decide

/-- C10: an input line with at least one character but consisting only of
spaces is NOT skipped by the blank-line check of either phase: the check is
false on it, splitting on single spaces yields empty-string tokens, the
empty string is counted as an ordinary token by `_gather_token_count`
(and, being digit-free, is eligible to become a sampled singleton), and
`_write_file` emits a corresponding output line for it. -/
theorem c10_whitespace_line_processed (cs : Tok) (singletons : List Tok)
    (lowercase replace_digits : Bool)
    (hne : cs ≠ []) (hsp : ∀ c ∈ cs, c = ' ') :
    isBlankLine (cs ++ ['\n']) = false ∧
    [] ∈ splitOnSpace (rstripNl (cs ++ ['\n'])) ∧
    1 ≤ dictLookup (countLine lowercase replace_digits [] (cs ++ ['\n'])) [] ∧
    hasDigit [] = false ∧
    (writeLine singletons lowercase replace_digits (cs ++ ['\n'])).isSome = true := by
  have hblank := isBlankLine_space_line hne
  have hstrip := rstripNl_space_line hsp
  refine ⟨hblank, ?_, ?_, rfl, ?_⟩
  · rw [hstrip]
    exact nil_mem_splitOnSpace hne hsp
  · unfold countLine
    rw [if_neg (by simp [hblank]), hstrip]
    have h1 := countFold_lookup_of_mem (splitOnSpace cs)
      (gatherTokenNorm lowercase replace_digits) [] []
      (nil_mem_splitOnSpace hne hsp)
    rwa [gatherTokenNorm_nil] at h1
  · unfold writeLine
    rw [if_neg (by simp [hblank])]
    rfl

/-- Witness for `c10_whitespace_line_processed` at the single-space line
`" \n"`. -/
theorem c10_whitespace_line_processed_witness :
    (([' '] : Tok) ≠ [] ∧ ∀ c ∈ ([' '] : Tok), c = ' ') ∧
    (isBlankLine ([' '] ++ ['\n']) = false ∧
     [] ∈ splitOnSpace (rstripNl ([' '] ++ ['\n'])) ∧
     1 ≤ dictLookup (countLine true true [] ([' '] ++ ['\n'])) [] ∧
     hasDigit [] = false ∧
     (writeLine [] true true ([' '] ++ ['\n'])).isSome = true) :=
  ⟨⟨by decide, by decide⟩,
   c10_whitespace_line_processed [' '] [] true true (by decide) (by decide)⟩

end MimicW2v
